import Mathlib

/-!
Verification of the legal-citation intelligence engine (ai-law-research).

The definitions below are a shallow embedding of the Python source:
pure fragments become Lean functions, database tables become lists of
rows, and external services (OpenSearch, the embedding API, eyecite)
become explicit parameters.  Machine floats carrying only scores and
confidences are modelled as rationals, since no claim depends on
rounding behaviour.
-/

/-- Does the character list start with the pattern? -/
def startsWithChars : List Char → List Char → Bool
  | _, [] => true
  | [], _ :: _ => false
  | c :: s, p :: ps => c == p && startsWithChars s ps

/-- Does the pattern occur anywhere in the character list? -/
def containsChars : List Char → List Char → Bool
  | [], pat => pat.isEmpty
  | s :: rest, pat => startsWithChars (s :: rest) pat || containsChars rest pat

/-- Substring test: Python `sub in s`, on the underlying character
lists. -/
def containsSub (s pat : String) : Bool := containsChars s.data pat.data

/-- Python `s.lower()` for the ASCII range relevant to the treatment
keywords: lower each character. -/
def toLowerStr (s : String) : String := String.mk (s.data.map Char.toLower)

/-- Python truthiness of an optional string: `None` and `""` are falsy. -/
def pyTruthyStr : Option String → Bool
  | none => false
  | some s => !s.isEmpty

/-- Python truthiness of an optional integer: `None` and `0` are falsy. -/
def pyTruthyInt : Option Int → Bool
  | none => false
  | some n => n != 0

/-! ## Treatment classifier and badge engine (backend/main.py, get_citator) -/

/-- One row of the `citing` result set of `get_citator`: the citation's
treatment signal (the `signal` column, nullable) joined with the citing
case's decision date (nullable). -/
structure CitingRow where
  signal : Option String
  decisionDate : Option Int
  deriving DecidableEq, Repr

/-- The negative-treatment membership test of `get_citator`:
`row["signal"] in ["overruled", "criticized", "questioned"]`
(a NULL signal is in neither group). -/
def isNegativeSignal : Option String → Bool
  | some s => s == "overruled" || s == "criticized" || s == "questioned"
  | none => false

/-- The positive-treatment membership test of `get_citator`:
`row["signal"] in ["followed", "affirmed", "cited_favorably"]`. -/
def isPositiveSignal : Option String → Bool
  | some s => s == "followed" || s == "affirmed" || s == "cited_favorably"
  | none => false

/-- The badge computation of `get_citator` on the fetched rows:
`negative` collects rows with a negative-group signal; the badge is
`red` if any of those is `overruled`, else `yellow` if `negative` is
non-empty, else `green`. -/
def badgeOf (rows : List CitingRow) : String :=
  let negative := rows.filter (fun r => isNegativeSignal r.signal)
  if negative.length > 0 then
    if negative.any (fun r => r.signal == some "overruled") then "red" else "yellow"
  else "green"

/-- `ORDER BY c2.decision_date DESC NULLS LAST`: `a` may precede `b`
when `a`'s date is at least `b`'s, a NULL date ranking below every
date. -/
def dateGeB : Option Int → Option Int → Bool
  | none, none => true
  | none, some _ => false
  | some _, none => true
  | some a, some b => b ≤ a

/-- The fetch order of `get_citator`'s SQL query, as a relation on rows. -/
def citingOrder (e1 e2 : CitingRow) : Prop :=
  dateGeB e1.decisionDate e2.decisionDate = true

instance : DecidableRel citingOrder := fun e1 e2 => by
  unfold citingOrder; exact inferInstance

/-- The `citing` fetch of `get_citator`: all incoming edges of the case,
ordered by the citing case's decision date descending (NULLS LAST),
truncated by `LIMIT 100`. -/
def fetchCiting (rows : List CitingRow) : List CitingRow :=
  (List.insertionSort citingOrder rows).take 100

/-- `get_citator`'s badge for a case whose full incoming edge set is
`rows`: the badge rule applied to the fetched (sorted, limited) rows. -/
def getCitatorBadge (rows : List CitingRow) : String :=
  badgeOf (fetchCiting rows)

lemma badgeOf_red_iff (rows : List CitingRow) :
    badgeOf rows = "red" ↔ ∃ e ∈ rows, e.signal = some "overruled" := by
  unfold badgeOf
  by_cases hov : ∃ e ∈ rows, e.signal = some "overruled"
  · obtain ⟨e, he, hsig⟩ := hov
    have hneg : (rows.filter (fun r => isNegativeSignal r.signal)).length > 0 := by
      have : e ∈ rows.filter (fun r => isNegativeSignal r.signal) := by
        simp [List.mem_filter, he, isNegativeSignal, hsig]
      exact List.length_pos.mpr (List.ne_nil_of_mem this)
    have hany : (rows.filter (fun r => isNegativeSignal r.signal)).any
        (fun r => r.signal == some "overruled") = true := by
      refine List.any_eq_true.mpr ⟨e, ?_, by simp [hsig]⟩
      simp [List.mem_filter, he, isNegativeSignal, hsig]
    simp only [hneg, if_true, hany]
    constructor
    · intro _; exact ⟨e, he, hsig⟩
    · intro _; trivial
  · constructor
    · intro hred
      by_cases hneg : (rows.filter (fun r => isNegativeSignal r.signal)).length > 0
      · simp only [hneg, if_true] at hred
        by_cases hany : (rows.filter (fun r => isNegativeSignal r.signal)).any
            (fun r => r.signal == some "overruled") = true
        · obtain ⟨e, he, hsig⟩ := List.any_eq_true.mp hany
          exact absurd ⟨e, (List.mem_filter.mp he).1, by simpa using hsig⟩ hov
        · simp only [Bool.not_eq_true] at hany
          simp [hany] at hred
      · simp only [hneg, if_false] at hred
        exact absurd hred (by decide)
    · intro h; exact absurd h hov

lemma badgeOf_green_iff (rows : List CitingRow) :
    badgeOf rows = "green" ↔ ∀ e ∈ rows, isNegativeSignal e.signal = false := by
  unfold badgeOf
  by_cases hneg : (rows.filter (fun r => isNegativeSignal r.signal)).length > 0
  · simp only [hneg, if_true]
    have hne : rows.filter (fun r => isNegativeSignal r.signal) ≠ [] :=
      List.ne_nil_of_length_pos hneg
    obtain ⟨e, he⟩ := List.exists_mem_of_ne_nil _ hne
    have hmem := List.mem_filter.mp he
    constructor
    · intro hg
      by_cases hany : (rows.filter (fun r => isNegativeSignal r.signal)).any
          (fun r => r.signal == some "overruled") = true
      · simp [hany] at hg
      · simp only [Bool.not_eq_true] at hany
        simp [hany] at hg
    · intro hall
      exact absurd (hall e hmem.1) (by simp [hmem.2])
  · simp only [hneg, if_false]
    have hnil : rows.filter (fun r => isNegativeSignal r.signal) = [] := by
      cases h : rows.filter (fun r => isNegativeSignal r.signal) with
      | nil => rfl
      | cons a l => exact absurd (h ▸ (by simp : (a :: l).length > 0)) hneg
    constructor
    · intro _ e he
      by_contra hcon
      have : e ∈ rows.filter (fun r => isNegativeSignal r.signal) := by
        simp only [Bool.not_eq_false] at hcon
        simp [List.mem_filter, he, hcon]
      simp [hnil] at this
    · intro _; trivial

lemma badgeOf_yellow_iff (rows : List CitingRow) :
    badgeOf rows = "yellow" ↔
      ((∃ e ∈ rows, isNegativeSignal e.signal = true) ∧
        ¬ ∃ e ∈ rows, e.signal = some "overruled") := by
  have h3 : badgeOf rows = "red" ∨ badgeOf rows = "yellow" ∨ badgeOf rows = "green" := by
    unfold badgeOf
    by_cases h1 : (rows.filter (fun r => isNegativeSignal r.signal)).length > 0
    · simp only [h1, if_true]
      by_cases h2 : (rows.filter (fun r => isNegativeSignal r.signal)).any
          (fun r => r.signal == some "overruled") = true
      · simp [h2]
      · simp only [Bool.not_eq_true] at h2
        simp [h2]
    · simp [h1]
  constructor
  · intro hy
    have hnr : ¬ ∃ e ∈ rows, e.signal = some "overruled" := by
      intro hov
      have := (badgeOf_red_iff rows).mpr hov
      rw [hy] at this; exact absurd this (by decide)
    have hng : ¬ ∀ e ∈ rows, isNegativeSignal e.signal = false := by
      intro hall
      have := (badgeOf_green_iff rows).mpr hall
      rw [hy] at this; exact absurd this (by decide)
    push_neg at hng
    obtain ⟨e, he, hsig⟩ := hng
    exact ⟨⟨e, he, by simpa using hsig⟩, hnr⟩
  · rintro ⟨⟨e, he, hsig⟩, hnov⟩
    rcases h3 with hr | hy | hg
    · exact absurd ((badgeOf_red_iff rows).mp hr) hnov
    · exact hy
    · have := (badgeOf_green_iff rows).mp hg e he
      rw [hsig] at this; exact absurd this (by decide)

/-- A case with 101 incoming edges: 100 `cited` edges from recent cases
and one `overruled` edge from the oldest citing case. -/
def c1Hidden : List CitingRow :=
  List.replicate 100 ⟨some "cited", some 100⟩ ++ [⟨some "overruled", some 0⟩]

/-- Claim C1, counterexample: `get_citator` fetches citing edges with
`LIMIT 100` (most recent first), so an `overruled` edge older than 100
other citing edges is never seen: the badge is `green` although an
incoming edge has signal `overruled`, where the claim requires `red`. -/
theorem c1_counterexample :
    getCitatorBadge c1Hidden = "green" ∧
    (∃ e ∈ c1Hidden, e.signal = some "overruled") ∧
    getCitatorBadge c1Hidden ≠ "red" := by decide

/-- Claim C1 (amended): for a case with at most 100 incoming citation
edges — so that `get_citator`'s `LIMIT 100` fetch covers all of them —
the badge is `red` iff some incoming edge has signal `overruled`,
`yellow` iff some incoming edge has a negative-group signal and none is
`overruled`, and `green` iff no incoming edge has a negative-group
signal (`overruled`, `criticized`, `questioned`). -/
theorem c1_badge_characterization (rows : List CitingRow) (h : rows.length ≤ 100) :
    (getCitatorBadge rows = "red" ↔ ∃ e ∈ rows, e.signal = some "overruled") ∧
    (getCitatorBadge rows = "yellow" ↔
      ((∃ e ∈ rows, isNegativeSignal e.signal = true) ∧
        ¬ ∃ e ∈ rows, e.signal = some "overruled")) ∧
    (getCitatorBadge rows = "green" ↔ ∀ e ∈ rows, isNegativeSignal e.signal = false) := by
  have hlen : (List.insertionSort citingOrder rows).length ≤ 100 := by
    rw [List.length_insertionSort]; exact h
  have hfetch : fetchCiting rows = List.insertionSort citingOrder rows :=
    List.take_of_length_le hlen
  have hmem : ∀ e : CitingRow, e ∈ List.insertionSort citingOrder rows ↔ e ∈ rows :=
    fun e => List.mem_insertionSort citingOrder
  unfold getCitatorBadge
  rw [hfetch]
  refine ⟨?_, ?_, ?_⟩
  · rw [badgeOf_red_iff]
    exact ⟨fun ⟨e, he, hs⟩ => ⟨e, (hmem e).mp he, hs⟩,
      fun ⟨e, he, hs⟩ => ⟨e, (hmem e).mpr he, hs⟩⟩
  · rw [badgeOf_yellow_iff]
    constructor
    · rintro ⟨⟨e, he, hs⟩, hno⟩
      exact ⟨⟨e, (hmem e).mp he, hs⟩, fun ⟨f, hf, hfs⟩ => hno ⟨f, (hmem f).mpr hf, hfs⟩⟩
    · rintro ⟨⟨e, he, hs⟩, hno⟩
      exact ⟨⟨e, (hmem e).mpr he, hs⟩, fun ⟨f, hf, hfs⟩ => hno ⟨f, (hmem f).mp hf, hfs⟩⟩
  · rw [badgeOf_green_iff]
    exact ⟨fun hall e he => hall e ((hmem e).mpr he),
      fun hall e he => hall e ((hmem e).mp he)⟩

/-- Witness for the amended claim C1 at a concrete one-edge case. -/
theorem c1_badge_characterization_witness :
    getCitatorBadge [⟨some "overruled", none⟩] = "red" :=
  (c1_badge_characterization [⟨some "overruled", none⟩] (by decide)).1.mpr
    ⟨⟨some "overruled", none⟩, by decide, rfl⟩

/-! ## Hybrid retrieval: reciprocal rank fusion (backend/main.py) -/

/-- One step of the score-dictionary update of `reciprocal_rank_fusion`:
`scores[case_id] = scores.get(case_id, 0) + inc`, on an association
list in dictionary insertion order. -/
def addScore (scores : List (Nat × ℚ)) (caseId : Nat) (inc : ℚ) : List (Nat × ℚ) :=
  if scores.any (fun p => p.1 == caseId) then
    scores.map (fun p => if p.1 == caseId then (p.1, p.2 + inc) else p)
  else scores ++ [(caseId, inc)]

/-- `for rank, item in enumerate(lst): scores[id] += 1 / (k + rank + 1)`:
fold one ranked list into the score dictionary, starting at `rank`. -/
def buildScores (k : ℚ) : List Nat → Nat → List (Nat × ℚ) → List (Nat × ℚ)
  | [], _, scores => scores
  | c :: rest, rank, scores =>
      buildScores k rest (rank + 1) (addScore scores c (1 / (k + (rank : ℚ) + 1)))

/-- `sorted(scores.keys(), key=lambda x: scores[x], reverse=True)`:
descending order on the fused score. -/
def scoreOrder (p q : Nat × ℚ) : Prop := q.2 ≤ p.2

instance : DecidableRel scoreOrder := fun p q => by
  unfold scoreOrder; exact inferInstance

instance : IsTotal (Nat × ℚ) scoreOrder := ⟨fun p q => le_total q.2 p.2⟩

instance : IsTrans (Nat × ℚ) scoreOrder := ⟨fun _ _ _ h1 h2 => le_trans h2 h1⟩

/-- The RRF constant: `def reciprocal_rank_fusion(list1, list2, k=60)`. -/
def rrfK : ℚ := 60

/-- `reciprocal_rank_fusion(list1, list2)` of backend/main.py on the two
ranked id lists: accumulate `1 / (k + rank + 1)` per occurrence into the
score dictionary (list1 first, then list2), sort the entries by score
descending, and keep the top 10. The result pairs each case id with its
fused score. -/
def reciprocal_rank_fusion (list1 list2 : List Nat) : List (Nat × ℚ) :=
  let scores := buildScores rrfK list2 0 (buildScores rrfK list1 0 [])
  (List.insertionSort scoreOrder scores).take 10

/-- Total contribution of one ranked list to a case's fused score,
ranks counted from `rank`. -/
def contrib (k : ℚ) : List Nat → Nat → Nat → ℚ
  | [], _, _ => 0
  | x :: rest, rank, c =>
      (if x = c then 1 / (k + (rank : ℚ) + 1) else 0) + contrib k rest (rank + 1) c

/-- Dictionary lookup with default 0: `scores.get(case_id, 0)` (first
entry with the key wins, as for `List.find?`). -/
def scoreVal : List (Nat × ℚ) → Nat → ℚ
  | [], _ => 0
  | p :: rest, c => if p.1 = c then p.2 else scoreVal rest c

/-- The fused score stated by the spec: the sum, over the lists in which
the case appears, of `1 / (60 + rank + 1)` at its 0-based rank. -/
def rrfSpecScore (list1 list2 : List Nat) (c : Nat) : ℚ :=
  (if c ∈ list1 then 1 / (60 + (list1.indexOf c : ℚ) + 1) else 0) +
  (if c ∈ list2 then 1 / (60 + (list2.indexOf c : ℚ) + 1) else 0)

lemma updEntry_eq (caseId : Nat) (inc : ℚ) (q : Nat × ℚ) :
    (if q.1 == caseId then (q.1, q.2 + inc) else q)
      = (q.1, if q.1 == caseId then q.2 + inc else q.2) := by
  by_cases hq : (q.1 == caseId) = true
  · rw [if_pos hq, if_pos hq]
  · rw [if_neg hq, if_neg hq]

lemma scoreVal_map_ne (l : List (Nat × ℚ)) (caseId : Nat) (inc : ℚ) (c : Nat)
    (hc : c ≠ caseId) :
    scoreVal (l.map (fun p => if p.1 == caseId then (p.1, p.2 + inc) else p)) c
      = scoreVal l c := by
  induction l with
  | nil => rfl
  | cons q rest ih =>
    rw [List.map_cons, updEntry_eq]
    simp only [scoreVal]
    by_cases hqc : q.1 = c
    · rw [if_pos hqc, if_pos hqc]
      have hq : (q.1 == caseId) = false :=
        beq_eq_false_iff_ne.mpr (fun h => hc (hqc ▸ h))
      rw [hq]
      rfl
    · rw [if_neg hqc, if_neg hqc]
      exact ih

lemma scoreVal_map_eq (l : List (Nat × ℚ)) (caseId : Nat) (inc : ℚ)
    (hmem : l.any (fun p => p.1 == caseId) = true) :
    scoreVal (l.map (fun p => if p.1 == caseId then (p.1, p.2 + inc) else p)) caseId
      = scoreVal l caseId + inc := by
  induction l with
  | nil => simp at hmem
  | cons q rest ih =>
    rw [List.map_cons, updEntry_eq]
    simp only [scoreVal]
    by_cases hq : q.1 = caseId
    · rw [if_pos hq, if_pos hq, if_pos (beq_iff_eq.mpr hq)]
    · rw [if_neg hq, if_neg hq]
      have hrest : rest.any (fun p => p.1 == caseId) = true := by
        rcases List.any_eq_true.mp hmem with ⟨x, hx, hxx⟩
        rcases List.mem_cons.mp hx with h | h
        · exact absurd (beq_iff_eq.mp (h ▸ hxx)) hq
        · exact List.any_eq_true.mpr ⟨x, h, hxx⟩
      exact ih hrest

lemma scoreVal_append_single (l : List (Nat × ℚ)) (caseId : Nat) (inc : ℚ) (c : Nat)
    (hnone : ∀ p ∈ l, p.1 ≠ caseId) :
    scoreVal (l ++ [(caseId, inc)]) c
      = scoreVal l c + (if c = caseId then inc else 0) := by
  induction l with
  | nil =>
    simp only [List.nil_append, scoreVal]
    by_cases hc : c = caseId
    · rw [if_pos hc.symm, if_pos hc]; ring
    · rw [if_neg (fun h => hc h.symm), if_neg hc]; ring
  | cons q rest ih =>
    have hq : q.1 ≠ caseId := hnone q (List.mem_cons_self q rest)
    simp only [List.cons_append, scoreVal]
    by_cases hqc : q.1 = c
    · have hc : ¬ c = caseId := fun h => hq (hqc.trans h)
      rw [if_pos hqc, if_pos hqc, if_neg hc]; ring
    · rw [if_neg hqc, if_neg hqc]
      exact ih (fun p hp => hnone p (List.mem_cons_of_mem q hp))

lemma scoreVal_addScore (scores : List (Nat × ℚ)) (caseId : Nat) (inc : ℚ) (c : Nat) :
    scoreVal (addScore scores caseId inc) c
      = scoreVal scores c + (if c = caseId then inc else 0) := by
  unfold addScore
  by_cases hmem : scores.any (fun p => p.1 == caseId) = true
  · rw [if_pos hmem]
    by_cases hc : c = caseId
    · subst hc
      rw [if_pos rfl]
      exact scoreVal_map_eq scores c inc hmem
    · rw [if_neg hc, add_zero]
      exact scoreVal_map_ne scores caseId inc c hc
  · rw [if_neg hmem]
    refine scoreVal_append_single scores caseId inc c (fun p hp h => ?_)
    exact hmem (List.any_eq_true.mpr ⟨p, hp, beq_iff_eq.mpr h⟩)

/-- Keys of the score dictionary, in insertion order. -/
def keysOf (scores : List (Nat × ℚ)) : List Nat := scores.map Prod.fst

lemma keysOf_addScore (sc : List (Nat × ℚ)) (caseId : Nat) (inc : ℚ) :
    keysOf (addScore sc caseId inc)
      = if sc.any (fun p => p.1 == caseId) then keysOf sc else keysOf sc ++ [caseId] := by
  unfold addScore
  by_cases hmem : sc.any (fun p => p.1 == caseId) = true
  · rw [if_pos hmem, if_pos hmem]
    unfold keysOf
    rw [List.map_map]
    refine List.map_congr_left (fun p _ => ?_)
    rw [Function.comp_apply, updEntry_eq]
  · rw [if_neg hmem, if_neg hmem]
    unfold keysOf
    rw [List.map_append]
    rfl

lemma keysOf_nodup_addScore (sc : List (Nat × ℚ)) (caseId : Nat) (inc : ℚ)
    (h : (keysOf sc).Nodup) : (keysOf (addScore sc caseId inc)).Nodup := by
  rw [keysOf_addScore]
  by_cases hmem : sc.any (fun p => p.1 == caseId) = true
  · rw [if_pos hmem]; exact h
  · rw [if_neg hmem]
    refine List.Nodup.append h (List.nodup_singleton caseId) ?_
    intro a ha hb
    rw [List.mem_singleton] at hb
    subst hb
    rcases List.mem_map.mp ha with ⟨p, hp, hfst⟩
    exact hmem (List.any_eq_true.mpr ⟨p, hp, beq_iff_eq.mpr hfst⟩)

lemma keysOf_nodup_buildScores (k : ℚ) (l : List Nat) (rank : Nat) (sc : List (Nat × ℚ))
    (h : (keysOf sc).Nodup) : (keysOf (buildScores k l rank sc)).Nodup := by
  induction l generalizing rank sc with
  | nil => exact h
  | cons x rest ih =>
    simp only [buildScores]
    exact ih _ _ (keysOf_nodup_addScore sc x _ h)

lemma scoreVal_of_mem (sc : List (Nat × ℚ)) (hnd : (keysOf sc).Nodup)
    (p : Nat × ℚ) (hp : p ∈ sc) : p.2 = scoreVal sc p.1 := by
  induction sc with
  | nil => simp at hp
  | cons q rest ih =>
    rcases List.mem_cons.mp hp with h | h
    · subst h
      simp [scoreVal]
    · have hnd2 : q.1 ∉ keysOf rest ∧ (keysOf rest).Nodup := by
        rw [show keysOf (q :: rest) = q.1 :: keysOf rest from rfl] at hnd
        exact List.nodup_cons.mp hnd
      have hq : q.1 ≠ p.1 := by
        intro hcon
        exact hnd2.1 (hcon ▸ List.mem_map.mpr ⟨p, h, rfl⟩)
      simp only [scoreVal]
      rw [if_neg hq]
      exact ih hnd2.2 h

lemma scoreVal_buildScores (k : ℚ) (l : List Nat) (rank : Nat) (sc : List (Nat × ℚ)) (c : Nat) :
    scoreVal (buildScores k l rank sc) c = scoreVal sc c + contrib k l rank c := by
  induction l generalizing rank sc with
  | nil => simp [buildScores, contrib]
  | cons x rest ih =>
    simp only [buildScores, contrib]
    rw [ih, scoreVal_addScore]
    have : (if c = x then 1 / (k + (rank : ℚ) + 1) else 0)
        = (if x = c then 1 / (k + (rank : ℚ) + 1) else 0) := by
      by_cases h : x = c
      · rw [if_pos h, if_pos h.symm]
      · rw [if_neg h, if_neg (fun hc => h hc.symm)]
    rw [this]
    ring

lemma contrib_of_not_mem (k : ℚ) (l : List Nat) (rank : Nat) (c : Nat) (h : c ∉ l) :
    contrib k l rank c = 0 := by
  induction l generalizing rank with
  | nil => rfl
  | cons x rest ih =>
    simp only [contrib]
    rw [if_neg (fun hx : x = c => h (List.mem_cons.mpr (Or.inl hx.symm))),
      ih (rank + 1) (fun hc => h (List.mem_cons_of_mem x hc))]
    ring

lemma contrib_nodup (k : ℚ) (l : List Nat) (rank : Nat) (c : Nat) (hnd : l.Nodup) :
    contrib k l rank c
      = if c ∈ l then 1 / (k + (rank : ℚ) + (l.indexOf c : ℚ) + 1) else 0 := by
  induction l generalizing rank with
  | nil => simp [contrib]
  | cons x rest ih =>
    simp only [contrib]
    by_cases hx : x = c
    · subst hx
      have hnotin : x ∉ rest := (List.nodup_cons.mp hnd).1
      rw [if_pos rfl, contrib_of_not_mem k rest (rank + 1) x hnotin,
        if_pos (List.mem_cons_self x rest), List.indexOf_cons_self]
      push_cast
      ring
    · rw [if_neg hx, ih (rank + 1) (List.nodup_cons.mp hnd).2]
      have hmem : (c ∈ x :: rest) ↔ (c ∈ rest) := by
        rw [List.mem_cons]
        exact ⟨fun h => h.resolve_left (fun hc => hx hc.symm), Or.inr⟩
      by_cases hc : c ∈ rest
      · rw [if_pos hc, if_pos (hmem.mpr hc)]
        rw [List.indexOf_cons_ne _ (fun h => hx h)]
        push_cast
        ring
      · rw [if_neg hc, if_neg (fun h => hc (hmem.mp h))]
        ring

lemma rrf_score_eq (list1 list2 : List Nat) (h1 : list1.Nodup) (h2 : list2.Nodup)
    (p : Nat × ℚ) (hp : p ∈ reciprocal_rank_fusion list1 list2) :
    p.2 = rrfSpecScore list1 list2 p.1 := by
  simp only [reciprocal_rank_fusion] at hp
  have hmem : p ∈ buildScores rrfK list2 0 (buildScores rrfK list1 0 []) :=
    (List.mem_insertionSort scoreOrder).mp (List.Sublist.mem hp (List.take_sublist 10 _))
  have hnd : (keysOf (buildScores rrfK list2 0 (buildScores rrfK list1 0 []))).Nodup :=
    keysOf_nodup_buildScores _ _ _ _ (keysOf_nodup_buildScores _ _ _ _ List.nodup_nil)
  rw [scoreVal_of_mem _ hnd p hmem, scoreVal_buildScores, scoreVal_buildScores,
    contrib_nodup _ _ _ _ h1, contrib_nodup _ _ _ _ h2]
  simp only [scoreVal]
  unfold rrfSpecScore rrfK
  by_cases hA : p.1 ∈ list1
  · by_cases hB : p.1 ∈ list2
    · rw [if_pos hA, if_pos hB, if_pos hA, if_pos hB]; push_cast; ring
    · rw [if_pos hA, if_neg hB, if_pos hA, if_neg hB]; push_cast; ring
  · by_cases hB : p.1 ∈ list2
    · rw [if_neg hA, if_pos hB, if_neg hA, if_pos hB]; push_cast; ring
    · rw [if_neg hA, if_neg hB, if_neg hA, if_neg hB]; ring

lemma rrf_sorted (list1 list2 : List Nat) :
    List.Sorted scoreOrder (reciprocal_rank_fusion list1 list2) := by
  simp only [reciprocal_rank_fusion]
  exact List.Pairwise.sublist (List.take_sublist 10 _)
    (List.sorted_insertionSort scoreOrder _)

lemma rrfSpecScore_single_le (list1 list2 : List Nat) (c : Nat)
    (h : (c ∈ list1 ∧ c ∉ list2) ∨ (c ∉ list1 ∧ c ∈ list2)) :
    rrfSpecScore list1 list2 c ≤ 1 / 61 := by
  unfold rrfSpecScore
  rcases h with ⟨hin, hout⟩ | ⟨hout, hin⟩
  · rw [if_pos hin, if_neg hout, add_zero]
    refine one_div_le_one_div_of_le (by norm_num) ?_
    have : (0 : ℚ) ≤ (list1.indexOf c : ℚ) := Nat.cast_nonneg _
    linarith
  · rw [if_neg hout, if_pos hin, zero_add]
    refine one_div_le_one_div_of_le (by norm_num) ?_
    have : (0 : ℚ) ≤ (list2.indexOf c : ℚ) := Nat.cast_nonneg _
    linarith

/-- Claim C4: in `reciprocal_rank_fusion` each returned result's fused
score is the sum, over the (duplicate-free) input lists in which its id
appears, of `1 / (k + rank + 1)` with 0-based rank and `k = 60`; the
returned list is ordered by fused score descending; and a result ranked
0 in the lexical list and 1 in the semantic list scores exactly
`1/(60+0+1) + 1/(60+1+1)`, strictly above every result appearing in
only one of the two lists. -/
theorem c4_rrf_fusion (list1 list2 : List Nat) (h1 : list1.Nodup) (h2 : list2.Nodup) :
    (∀ p ∈ reciprocal_rank_fusion list1 list2, p.2 = rrfSpecScore list1 list2 p.1) ∧
    List.Sorted scoreOrder (reciprocal_rank_fusion list1 list2) ∧
    (∀ p ∈ reciprocal_rank_fusion list1 list2,
      p.1 ∈ list1 → p.1 ∈ list2 → list1.indexOf p.1 = 0 → list2.indexOf p.1 = 1 →
      p.2 = 1 / 61 + 1 / 62 ∧
      ∀ q ∈ reciprocal_rank_fusion list1 list2,
        ((q.1 ∈ list1 ∧ q.1 ∉ list2) ∨ (q.1 ∉ list1 ∧ q.1 ∈ list2)) → q.2 < p.2) := by
  have hscore := rrf_score_eq list1 list2 h1 h2
  refine ⟨hscore, rrf_sorted list1 list2, fun p hp hin1 hin2 hi1 hi2 => ?_⟩
  have hp2 : p.2 = 1 / 61 + 1 / 62 := by
    rw [hscore p hp]
    unfold rrfSpecScore
    rw [if_pos hin1, if_pos hin2, hi1, hi2]
    norm_num
  refine ⟨hp2, fun q hq hone => ?_⟩
  rw [hp2, hscore q hq]
  exact lt_of_le_of_lt (rrfSpecScore_single_le list1 list2 q.1 hone) (by norm_num)

/-- Witness for claim C4 on concrete two-element lists: id 1 is rank 0
lexically and rank 1 semantically; id 3 appears only semantically. -/
theorem c4_rrf_fusion_witness :
    List.Nodup [1, 2] ∧ List.Nodup [3, 1] ∧
    (∀ p ∈ reciprocal_rank_fusion [1, 2] [3, 1],
      p.2 = rrfSpecScore [1, 2] [3, 1] p.1) :=
  ⟨by decide, by decide, (c4_rrf_fusion [1, 2] [3, 1] (by decide) (by decide)).1⟩

/-! ## Hybrid search endpoint (backend/main.py, search_cases) -/

/-- Outcome of the semantic sub-search inside `search_cases`: either it
returns a ranked id list, or it raises (caught by the surrounding
`try/except`). -/
inductive SemanticCall where
  | ok (results : List Nat)
  | failed
  deriving DecidableEq, Repr

/-- `search_cases` of backend/main.py, with the external pieces as
parameters: `keywordBackendResults` is what the chosen keyword backend
(OpenSearch or PostgreSQL) returns, sized by the caller's limit, and
`semanticCall` the semantic sub-search outcome.  Keyword results are
gathered for `hybrid`/`keyword`, semantic results for
`hybrid`/`semantic` when an OpenAI key is configured (a raising
semantic call is swallowed, leaving them empty), and fusion runs only
for `hybrid` with a non-empty semantic list.  The Redis cache is absent
(its lookups are wrapped in bare excepts). -/
def search_cases (searchType : String) (hasOpenAIKey : Bool)
    (keywordBackendResults : List Nat) (semanticCall : SemanticCall) : List Nat :=
  let keywordResults :=
    if searchType == "hybrid" || searchType == "keyword" then keywordBackendResults else []
  let semanticResults :=
    if (searchType == "hybrid" || searchType == "semantic") && hasOpenAIKey then
      match semanticCall with
      | .ok r => r
      | .failed => []
    else []
  if searchType == "hybrid" && !semanticResults.isEmpty then
    (reciprocal_rank_fusion keywordResults semanticResults).map Prod.fst
  else keywordResults ++ semanticResults

/-- Claim C8: a hybrid search whose semantic path is unavailable (no
embedding key) or whose semantic sub-search raises does not raise and
returns exactly the lexical (keyword) results. -/
theorem c8_hybrid_degrades_to_lexical (searchType : String) (hasOpenAIKey : Bool)
    (keywordBackendResults : List Nat) (semanticCall : SemanticCall)
    (hType : searchType = "hybrid")
    (hFail : hasOpenAIKey = false ∨ semanticCall = SemanticCall.failed) :
    search_cases searchType hasOpenAIKey keywordBackendResults semanticCall
      = keywordBackendResults := by
  subst hType
  rcases hFail with h | h <;> subst h <;>
    simp [search_cases]

/-- Witness for claim C8: concrete hybrid query with a failing semantic
sub-search. -/
theorem c8_hybrid_degrades_to_lexical_witness :
    search_cases "hybrid" true [5, 7] SemanticCall.failed = [5, 7] :=
  c8_hybrid_degrades_to_lexical "hybrid" true [5, 7] SemanticCall.failed rfl (Or.inr rfl)

/-- Claim C5, counterexample: a hybrid request with caller limit 3
(both backend lists hold 3 results, as each sub-query is sized by the
limit) returns 6 fused results, because `reciprocal_rank_fusion`
truncates to a fixed top 10 and `search_cases` never applies the
caller's limit to the fused list. -/
theorem c5_counterexample :
    (search_cases "hybrid" true [1, 2, 3] (SemanticCall.ok [4, 5, 6])).length = 6 ∧
    ¬ (search_cases "hybrid" true [1, 2, 3] (SemanticCall.ok [4, 5, 6])).length ≤ 3 := by
  have h : (search_cases "hybrid" true [1, 2, 3] (SemanticCall.ok [4, 5, 6])).length = 6 := by
    show ((reciprocal_rank_fusion [1, 2, 3] [4, 5, 6]).map Prod.fst).length = 6
    rw [List.length_map]
    simp only [reciprocal_rank_fusion]
    rw [List.length_take, List.length_insertionSort]
    rfl
  refine ⟨h, ?_⟩
  rw [h]
  omega

/-- Claim C5 (amended): the fused result list of hybrid search is
truncated to a fixed top 10 — `reciprocal_rank_fusion` always takes at
most 10 entries, regardless of the caller-supplied limit (which bounds
only the two input lists). -/
theorem c5_fused_top10 (list1 list2 : List Nat) :
    (reciprocal_rank_fusion list1 list2).length ≤ 10 := by
  simp only [reciprocal_rank_fusion]
  rw [List.length_take]
  exact min_le_left _ _

/-! ## Brief analyzer: citation validation (backend/brief_analyzer.py) -/

/-- The `Citation` dataclass fields that `validate_citations` reads.
`text` is a required string; the remaining fields are optional. -/
structure BriefCitation where
  text : String
  reporter : Option String
  volume : Option Int
  page : Option Int
  year : Option Int
  caseName : Option String
  deriving DecidableEq, Repr

/-- A row of the `cases` table as selected by the validation queries. -/
structure DbCase where
  id : Nat
  caseName : String
  deriving DecidableEq, Repr

/-- `cite.year and cite.year < 1950` (Python truthiness: a year of 0 is
falsy and skips the check). -/
def isVeryOld : Option Int → Bool
  | some y => y != 0 && decide (y < 1950)
  | none => false

/-- `cite.text and isinstance(cite.text, str) and "overruled" in
cite.text.lower()`. -/
def hasOverruledKeyword (text : String) : Bool :=
  !text.isEmpty && containsSub (toLowerStr text) "overruled"

/-- The diagnostic attached to an unmatched citation in
`validate_citations`: very-old check first, then the `overruled`
keyword, then the missing reporter, else the generic not-found text. -/
def problemFor (cite : BriefCitation) : String :=
  if isVeryOld cite.year then "Very old case - check if still good law"
  else if hasOverruledKeyword cite.text then "May have been overruled"
  else if !pyTruthyStr cite.reporter then "Incomplete citation format"
  else "Not found in database"

/-- Modelled from the spec: the diagnostic priority order as the spec
states it — "incomplete citation format" if no reporter token was
parsed, then the very-old check, then the treatment-keyword check, else
the generic not-found diagnostic (using the code's diagnostic strings,
since the spec paraphrases them). -/
def problemForSpecOrder (cite : BriefCitation) : String :=
  if !pyTruthyStr cite.reporter then "Incomplete citation format"
  else if isVeryOld cite.year then "Very old case - check if still good law"
  else if hasOverruledKeyword cite.text then "May have been overruled"
  else "Not found in database"

/-- The lookup cascade of `validate_citations`, with the three SQL
queries as parameters: by case name when one is present, else by
volume+reporter+page when all three are truthy, else by the name part
of a text containing " v. " (the part before the first comma when one
occurs). -/
def lookupRow (qByName : String → Option DbCase)
    (qByCite : Int → String → Int → Option DbCase)
    (qByText : String → Option DbCase) (cite : BriefCitation) : Option DbCase :=
  let row1 : Option DbCase :=
    if pyTruthyStr cite.caseName then qByName (cite.caseName.getD "") else none
  let row2 : Option DbCase :=
    match row1 with
    | some r => some r
    | none =>
      if pyTruthyInt cite.volume && pyTruthyStr cite.reporter && pyTruthyInt cite.page then
        qByCite (cite.volume.getD 0) (cite.reporter.getD "") (cite.page.getD 0)
      else none
  match row2 with
  | some r => some r
  | none =>
    if !cite.text.isEmpty && containsSub cite.text " v. " then
      qByText (if containsSub cite.text "," then (cite.text.splitOn ",").headD cite.text
        else cite.text)
    else none

/-- `validate_citations` of backend/brief_analyzer.py: walk the mentions
in order; a mention whose lookup matches a row goes to the `validated`
list, any other goes to `problematic` with its diagnostic. -/
def validate_citations (qByName : String → Option DbCase)
    (qByCite : Int → String → Int → Option DbCase)
    (qByText : String → Option DbCase) :
    List BriefCitation → List (BriefCitation × DbCase) × List (BriefCitation × String)
  | [] => ([], [])
  | cite :: rest =>
    let tail := validate_citations qByName qByCite qByText rest
    match lookupRow qByName qByCite qByText cite with
    | some row => ((cite, row) :: tail.1, tail.2)
    | none => (tail.1, (cite, problemFor cite) :: tail.2)

/-- Claim C9: `validate_citations` partitions its input — the validated
list carries exactly the mentions whose lookup matched (in order), the
problematic list exactly the rest, and the two lengths always sum to
the number of input mentions. -/
theorem c9_validate_partition (qByName : String → Option DbCase)
    (qByCite : Int → String → Int → Option DbCase)
    (qByText : String → Option DbCase) (cites : List BriefCitation) :
    (validate_citations qByName qByCite qByText cites).1.map Prod.fst
        = cites.filter (fun c => (lookupRow qByName qByCite qByText c).isSome) ∧
    (validate_citations qByName qByCite qByText cites).2.map Prod.fst
        = cites.filter (fun c => !(lookupRow qByName qByCite qByText c).isSome) ∧
    (validate_citations qByName qByCite qByText cites).1.length
        + (validate_citations qByName qByCite qByText cites).2.length
        = cites.length := by
  induction cites with
  | nil => exact ⟨rfl, rfl, rfl⟩
  | cons cite rest ih =>
    simp only [validate_citations]
    cases hlook : lookupRow qByName qByCite qByText cite with
    | some row =>
      refine ⟨?_, ?_, ?_⟩
      · simp only [List.map_cons, List.filter_cons, hlook]
        rw [ih.1]
        rfl
      · simp only [List.filter_cons, hlook]
        rw [ih.2.1]
        rfl
      · simp only [List.length_cons]
        omega
    | none =>
      refine ⟨?_, ?_, ?_⟩
      · simp only [List.filter_cons, hlook]
        rw [ih.1]
        rfl
      · simp only [List.map_cons, List.filter_cons, hlook]
        rw [ih.2.1]
        rfl
      · simp only [List.length_cons]
        omega

/-- An unmatched mention with no parsed reporter and year 1940. -/
def c7Cite : BriefCitation :=
  { text := "Old v. Case", reporter := none, volume := none, page := none,
    year := some 1940, caseName := none }

/-- Claim C7, counterexample: for a miss with no parsed reporter and a
year before 1950, the code picks the very-old diagnostic first, while
the claim's priority order demands the incomplete-format diagnostic
first — the two orders disagree at this input. -/
theorem c7_counterexample :
    problemFor c7Cite = "Very old case - check if still good law" ∧
    problemForSpecOrder c7Cite = "Incomplete citation format" ∧
    problemFor c7Cite ≠ problemForSpecOrder c7Cite := by decide

/-- Claim C7 (amended): for every resolution miss the diagnostic is
chosen in this order — "Very old case - check if still good law" if a
truthy parsed year is below 1950, else "May have been overruled" if the
mention's text contains "overruled" (case-insensitively), else
"Incomplete citation format" if no reporter token was parsed, else the
generic "Not found in database" — and the miss never raises (the
diagnostic map is a total function). -/
theorem c7_diagnostic_priority (cite : BriefCitation) :
    (problemFor cite = "Very old case - check if still good law"
      ↔ isVeryOld cite.year = true) ∧
    (problemFor cite = "May have been overruled"
      ↔ (isVeryOld cite.year = false ∧ hasOverruledKeyword cite.text = true)) ∧
    (problemFor cite = "Incomplete citation format"
      ↔ (isVeryOld cite.year = false ∧ hasOverruledKeyword cite.text = false ∧
          pyTruthyStr cite.reporter = false)) ∧
    (problemFor cite = "Not found in database"
      ↔ (isVeryOld cite.year = false ∧ hasOverruledKeyword cite.text = false ∧
          pyTruthyStr cite.reporter = true)) := by
  unfold problemFor
  cases h1 : isVeryOld cite.year
  · cases h2 : hasOverruledKeyword cite.text
    · cases h3 : pyTruthyStr cite.reporter
      · simp [h1, h2, h3]
      · simp [h1, h2, h3]
    · simp [h1, h2]
  · simp [h1]

/-! ## ETL corpus import (workers/etl.py, process_case) -/

/-- A row of the `cases` table, reduced to the fields the round-trip
claim concerns: primary-key id and content. -/
structure CaseRow where
  id : String
  content : String
  deriving DecidableEq, Repr

/-- `SELECT id FROM cases WHERE id = $1` — the pre-insert existence
check of `process_case`. -/
def findExisting (db : List CaseRow) (caseId : String) : Option CaseRow :=
  db.find? (fun r => r.id == caseId)

/-- `INSERT INTO cases ... ON CONFLICT (id) DO UPDATE SET content =
EXCLUDED.content, ...`: insert the row, or overwrite the content of the
row with the same primary key. -/
def upsertCase (db : List CaseRow) (caseId content : String) : List CaseRow :=
  if db.any (fun r => r.id == caseId) then
    db.map (fun r => if r.id == caseId then { r with content := content } else r)
  else db ++ [⟨caseId, content⟩]

/-- `process_case` of workers/etl.py restricted to corpus storage: if a
row with the id already exists the case is skipped ("already processed,
skipping"), otherwise the upsert statement runs. -/
def etl_process_case (db : List CaseRow) (caseId content : String) : List CaseRow :=
  if (findExisting db caseId).isSome then db
  else upsertCase db caseId content

/-- Claim C3, counterexample: importing the same identifier twice with
updated content leaves the first import's content — the existence check
makes `process_case` skip the re-import, so the second content does not
win. -/
theorem c3_counterexample :
    etl_process_case (etl_process_case [] "case-1" "first text") "case-1" "updated text"
      = [⟨"case-1", "first text"⟩] ∧
    ∀ r ∈ etl_process_case (etl_process_case [] "case-1" "first text") "case-1" "updated text",
      r.content ≠ "updated text" := by
  constructor
  · rfl
  · intro r hr
    have : r = ⟨"case-1", "first text"⟩ := by
      rw [show etl_process_case (etl_process_case [] "case-1" "first text")
        "case-1" "updated text" = [⟨"case-1", "first text"⟩] from rfl] at hr
      simpa using hr
    subst this
    decide

/-- Claim C3 (amended): importing the same CaseRecord twice with an
identical identifier creates no duplicate corpus entry, but the
second run is skipped entirely by the existence check, so the corpus
keeps the FIRST import's content. -/
theorem c3_reimport_skipped (db : List CaseRow) (caseId c1 c2 : String)
    (hfresh : ∀ r ∈ db, r.id ≠ caseId) :
    etl_process_case (etl_process_case db caseId c1) caseId c2
        = etl_process_case db caseId c1 ∧
    (etl_process_case (etl_process_case db caseId c1) caseId c2).filter
        (fun r => r.id == caseId) = [⟨caseId, c1⟩] := by
  have hfind : findExisting db caseId = none := by
    unfold findExisting
    rw [List.find?_eq_none]
    intro r hr
    simp [hfresh r hr]
  have hany : db.any (fun r => r.id == caseId) = false := by
    rw [Bool.eq_false_iff]
    intro hcon
    rcases List.any_eq_true.mp hcon with ⟨r, hr, hrr⟩
    exact hfresh r hr (by simpa using hrr)
  have hfirst : etl_process_case db caseId c1 = db ++ [⟨caseId, c1⟩] := by
    unfold etl_process_case upsertCase
    rw [hfind]
    simp [hany]
  have hsecond : findExisting (db ++ [⟨caseId, c1⟩]) caseId = some ⟨caseId, c1⟩ := by
    unfold findExisting
    rw [List.find?_append]
    unfold findExisting at hfind
    rw [hfind]
    simp
  constructor
  · rw [hfirst]
    unfold etl_process_case
    rw [hsecond]
    rfl
  · rw [hfirst]
    unfold etl_process_case
    rw [hsecond]
    simp only [Option.isSome_some, if_true, List.filter_append]
    have hdb : db.filter (fun r => r.id == caseId) = [] := by
      rw [List.filter_eq_nil_iff]
      intro r hr
      simp [hfresh r hr]
    rw [hdb]
    simp

/-- Witness for the amended claim C3 at a concrete empty corpus. -/
theorem c3_reimport_skipped_witness :
    etl_process_case (etl_process_case [] "a" "x") "a" "y"
        = etl_process_case [] "a" "x" ∧
    (etl_process_case (etl_process_case [] "a" "x") "a" "y").filter
        (fun r => r.id == "a") = [⟨"a", "x"⟩] :=
  c3_reimport_skipped [] "a" "x" "y" (by intro r hr; cases hr)

/-! ## Citation graph writers (workers/etl.py and
scripts/extract_citations.py) -/

/-- A row of the `citations` table as created by workers/etl.py
(`source_case_id`, `target_case_id`, `context_span`, `signal`). -/
structure EtlCitationRow where
  sourceCaseId : String
  targetCaseId : String
  contextSpan : String
  signal : String
  deriving DecidableEq, Repr

/-- The citation insert of `process_citation` in workers/etl.py:
`INSERT ... ON CONFLICT DO NOTHING`.  The `citations` table of
`create_tables` has a serial primary key and no unique constraint on
the ordered pair, so the clause never fires and the statement appends a
row even when the pair already exists. -/
def etlInsertCitation (st : List EtlCitationRow) (source target ctx sig : String) :
    List EtlCitationRow :=
  st ++ [⟨source, target, ctx, sig⟩]

/-- `detect_signal` of workers/etl.py: keyword scan over the lowered
citation text. -/
def detect_signal (citationText : String) : String :=
  let text := toLowerStr citationText
  if containsSub text "overrul" then "overruled"
  else if containsSub text "distinguish" then "distinguished"
  else if containsSub text "follow" then "followed"
  else if containsSub text "criticiz" then "criticized"
  else "cited"

/-- `resolve_citation` of workers/etl.py as shipped: "Simplified for
demo", it always returns `None`. -/
def resolve_citation : String → Option String := fun _ => none

/-- `process_citation` of workers/etl.py, with the resolver as a
parameter (`self.resolve_citation` is an overridable method): insert an
edge only when the citation resolves to a target case id. -/
def etl_process_citation (resolve : String → Option String) (st : List EtlCitationRow)
    (sourceCaseId citation : String) : List EtlCitationRow :=
  match resolve citation with
  | some target => etlInsertCitation st sourceCaseId target citation (detect_signal citation)
  | none => st

/-- The rows of the etl `citations` table holding a given ordered pair. -/
def etlPairRows (st : List EtlCitationRow) (source target : String) : List EtlCitationRow :=
  st.filter (fun r => r.sourceCaseId == source && r.targetCaseId == target)

/-- The join `get_citator` performs: the incoming edges of a case, each
paired with the citing case's decision date (a parameter, as the
`cases` table is not part of this store). -/
def incomingCitingRows (st : List EtlCitationRow) (targetId : String)
    (dateOf : String → Option Int) : List CitingRow :=
  (st.filter (fun r => r.targetCaseId == targetId)).map
    (fun r => ⟨some r.signal, dateOf r.sourceCaseId⟩)

/-- A resolver that maps every citation of case-a's opinion to case-b,
standing in for a successful resolution. -/
def c2Resolve : String → Option String := fun _ => some "case-b"

/-- The etl citations store after processing, for the pair (case-a,
case-b), a citation whose context reads as overruling and then one
with no treatment keyword (signal `cited`). -/
def c2State : List EtlCitationRow :=
  etl_process_citation c2Resolve
    (etl_process_citation c2Resolve [] "case-a" "overruled by later decision")
    "case-a" "see companion decision"

/-- Claim C2, counterexample: processing the same ordered pair twice
through the etl path produces two edges for the pair — re-resolution
duplicates instead of merging, because the schema has no uniqueness on
(source_case_id, target_case_id). -/
theorem c2_counterexample :
    (etlPairRows c2State "case-a" "case-b").length = 2 ∧
    ¬ (etlPairRows c2State "case-a" "case-b").length ≤ 1 := by decide

/-- A row of the `citations` table as written by
scripts/extract_citations.py (`citing_case_id`, `cited_case_id`,
`citation_text`, `confidence`). -/
structure ExtCitationRow where
  citingCaseId : String
  citedCaseId : String
  citationText : String
  confidence : ℚ
  deriving DecidableEq, Repr

/-- The ON CONFLICT target of scripts/extract_citations.py: does a row
hold the given ordered pair? -/
def pairPred (citing cited : String) (r : ExtCitationRow) : Bool :=
  r.citingCaseId == citing && r.citedCaseId == cited

/-- `DO UPDATE SET confidence = GREATEST(citations.confidence,
EXCLUDED.confidence)` applied to the conflicting row; other rows are
untouched. -/
def extUpdFn (citing cited : String) (conf : ℚ) (r : ExtCitationRow) : ExtCitationRow :=
  if pairPred citing cited r then { r with confidence := max r.confidence conf } else r

/-- The upsert of `process_case` in scripts/extract_citations.py:
`INSERT ... ON CONFLICT (citing_case_id, cited_case_id) DO UPDATE SET
confidence = GREATEST(citations.confidence, EXCLUDED.confidence)` — a
pair-keyed upsert (the conflict target presumes a unique index on the
ordered pair) that keeps the stored citation text and merges the
confidence by maximum. -/
def extUpsertCitation (st : List ExtCitationRow) (citing cited text : String) (conf : ℚ) :
    List ExtCitationRow :=
  if st.any (pairPred citing cited) then st.map (extUpdFn citing cited conf)
  else st ++ [⟨citing, cited, text, conf⟩]

/-- The rows of the extract-side `citations` table holding a pair. -/
def pairRows (st : List ExtCitationRow) (citing cited : String) : List ExtCitationRow :=
  st.filter (pairPred citing cited)

/-- The stored confidence of a pair, when present. -/
def pairConfidence (st : List ExtCitationRow) (citing cited : String) : Option ℚ :=
  (st.find? (pairPred citing cited)).map (fun r => r.confidence)

lemma pairPred_extUpdFn (citing cited : String) (conf : ℚ) (r : ExtCitationRow) :
    pairPred citing cited (extUpdFn citing cited conf r) = pairPred citing cited r := by
  unfold extUpdFn
  by_cases hr : pairPred citing cited r = true
  · rw [if_pos hr, hr]
    exact hr
  · rw [if_neg hr]

lemma ext_filter_map_upd (st : List ExtCitationRow) (p : ExtCitationRow → Bool)
    (f : ExtCitationRow → ExtCitationRow) (hf : ∀ r, p (f r) = p r) :
    (st.map f).filter p = (st.filter p).map f := by
  induction st with
  | nil => rfl
  | cons q rest ih =>
    simp only [List.map_cons, List.filter_cons, hf q]
    cases hq : p q
    · simpa using ih
    · simpa using ih

lemma ext_find_map_upd (st : List ExtCitationRow) (p : ExtCitationRow → Bool)
    (f : ExtCitationRow → ExtCitationRow) (hf : ∀ r, p (f r) = p r) :
    (st.map f).find? p = (st.find? p).map f := by
  induction st with
  | nil => rfl
  | cons q rest ih =>
    simp only [List.map_cons, List.find?_cons, hf q]
    cases hq : p q
    · simpa using ih
    · simp

/-- Claim C2 (amended): the confidence-bearing writer
(extract_citations.py) is a true per-pair upsert — starting from a
store with at most one row for the ordered pair, an upsert leaves
exactly one row for it, whose confidence is the maximum of the old and
new values; the signal-bearing etl writer, by contrast, appends a
duplicate edge for the pair (c2_counterexample), yet after recording
`overruled` and then `cited` for (A, B), `badge_for(B)` is still `red`,
since any incoming `overruled` edge forces a red badge. -/
theorem c2_pair_merge_and_badge :
    (∀ (st : List ExtCitationRow) (citing cited text : String) (conf : ℚ),
      (pairRows st citing cited).length ≤ 1 →
      (pairRows (extUpsertCitation st citing cited text conf) citing cited).length = 1 ∧
      pairConfidence (extUpsertCitation st citing cited text conf) citing cited
        = some ((pairConfidence st citing cited).elim conf (fun c0 => max c0 conf))) ∧
    ((etlPairRows c2State "case-a" "case-b").length = 2 ∧
      getCitatorBadge (incomingCitingRows c2State "case-b" (fun _ => none)) = "red") := by
  constructor
  · intro st citing cited text conf hle
    simp only [pairRows, pairConfidence, extUpsertCitation] at hle ⊢
    by_cases hany : st.any (pairPred citing cited) = true
    · rw [if_pos hany]
      obtain ⟨r0, hr0mem, hr0⟩ := List.any_eq_true.mp hany
      have hlen1 : (st.filter (pairPred citing cited)).length = 1 := by
        have hpos : 0 < (st.filter (pairPred citing cited)).length :=
          List.length_pos_of_mem (List.mem_filter.mpr ⟨hr0mem, hr0⟩)
        omega
      constructor
      · rw [ext_filter_map_upd st (pairPred citing cited) (extUpdFn citing cited conf)
          (pairPred_extUpdFn citing cited conf), List.length_map]
        exact hlen1
      · rw [ext_find_map_upd st (pairPred citing cited) (extUpdFn citing cited conf)
          (pairPred_extUpdFn citing cited conf)]
        cases hfind : st.find? (pairPred citing cited) with
        | none => exact absurd hr0 (List.find?_eq_none.mp hfind r0 hr0mem)
        | some r1 =>
          have hpr1 : pairPred citing cited r1 = true := List.find?_some hfind
          simp [extUpdFn, hpr1, Option.elim]
    · rw [if_neg hany]
      have hnone : ∀ r ∈ st, ¬ pairPred citing cited r = true := by
        intro r hr hcon
        exact hany (List.any_eq_true.mpr ⟨r, hr, hcon⟩)
      have hfilt : st.filter (pairPred citing cited) = [] :=
        List.filter_eq_nil_iff.mpr hnone
      have hfind : st.find? (pairPred citing cited) = none :=
        List.find?_eq_none.mpr hnone
      constructor
      · rw [List.filter_append, hfilt]
        simp [pairPred]
      · rw [List.find?_append, hfind]
        simp [pairPred]
  · exact ⟨by decide, by decide⟩

/-- Witness for the amended claim C2's upsert branch at a concrete
empty store. -/
theorem c2_pair_merge_and_badge_witness :
    (pairRows (extUpsertCitation [] "a" "b" "1 U.S. 1" 1) "a" "b").length = 1 ∧
    pairConfidence (extUpsertCitation [] "a" "b" "1 U.S. 1" 1) "a" "b"
      = some ((pairConfidence ([] : List ExtCitationRow) "a" "b").elim 1
          (fun c0 => max c0 1)) :=
  c2_pair_merge_and_badge.1 [] "a" "b" "1 U.S. 1" 1 (by decide)

/-- A citation emitted by eyecite for `extract_citations_from_case`:
its raw text, whether it is a `FullCaseCitation`, the reporter string
`f"{volume} {reporter} {page}"`, and the metadata case name when
present. -/
structure RawCite where
  rawText : String
  isFullCase : Bool
  citeStr : String
  caseName : Option String
  deriving DecidableEq, Repr

/-- A matched citation record built by `extract_citations_from_case`. -/
structure ExtractedCitation where
  rawCite : String
  citeStr : String
  matchedId : String
  confidence : ℚ
  deriving DecidableEq, Repr

/-- The per-citation body of `extract_citations_from_case`
(scripts/extract_citations.py): consider only `FullCaseCitation`s, look
the lowered reporter string up in the case-lookup table, fall back to
the normalized metadata case name, and keep the match only when it is
truthy and differs from the case being processed (`matched_id !=
case_id`, the self-cite guard), at confidence 0.9. -/
def extractMatched (caseLookup : String → Option String) (normalize : String → String)
    (c : RawCite) : Option String :=
  if pyTruthyStr (caseLookup (toLowerStr c.citeStr)) then caseLookup (toLowerStr c.citeStr)
  else
    match c.caseName with
    | some nm => if !nm.isEmpty then caseLookup (normalize nm) else none
    | none => none

def extractEntry (caseLookup : String → Option String) (normalize : String → String)
    (caseId : String) (c : RawCite) : Option ExtractedCitation :=
  if c.isFullCase then
    match extractMatched caseLookup normalize c with
    | some m =>
        if !m.isEmpty && m != caseId then some ⟨c.rawText, c.citeStr, m, 9 / 10⟩
        else none
    | none => none
  else none

/-- `extract_citations_from_case`: the matched citations of a case's
content, in order. -/
def extract_citations_from_case (caseLookup : String → Option String)
    (normalize : String → String) (caseId : String) (cites : List RawCite) :
    List ExtractedCitation :=
  cites.filterMap (extractEntry caseLookup normalize caseId)

/-- The storage loop of `process_case` in scripts/extract_citations.py:
upsert each matched citation as an edge from the processed case,
truncating the stored text to 200 characters. -/
def extractor_process_case (st : List ExtCitationRow) (caseId : String)
    (extracted : List ExtractedCitation) : List ExtCitationRow :=
  extracted.foldl
    (fun acc e =>
      if !e.matchedId.isEmpty then
        extUpsertCitation acc caseId e.matchedId (e.citeStr.take 200) e.confidence
      else acc) st

lemma extractEntry_no_self (caseLookup : String → Option String)
    (normalize : String → String) (caseId : String) (c : RawCite)
    (e : ExtractedCitation) (h : extractEntry caseLookup normalize caseId c = some e) :
    e.matchedId ≠ caseId := by
  unfold extractEntry at h
  by_cases hfull : c.isFullCase = true
  · rw [if_pos hfull] at h
    cases hm : extractMatched caseLookup normalize c with
    | none => rw [hm] at h; cases h
    | some m =>
      rw [hm] at h
      simp only [] at h
      by_cases hcond : (!m.isEmpty && m != caseId) = true
      · rw [if_pos hcond] at h
        cases h
        have := (Bool.and_eq_true _ _).mp hcond
        simpa using this.2
      · rw [if_neg hcond] at h
        cases h
  · rw [if_neg hfull] at h
    cases h

lemma extUpsert_preserves_no_self (st : List ExtCitationRow)
    (citing cited text : String) (conf : ℚ)
    (hst : ∀ r ∈ st, r.citingCaseId ≠ r.citedCaseId) (hne : citing ≠ cited) :
    ∀ r ∈ extUpsertCitation st citing cited text conf,
      r.citingCaseId ≠ r.citedCaseId := by
  intro r hr
  unfold extUpsertCitation at hr
  by_cases hany : st.any (pairPred citing cited) = true
  · rw [if_pos hany] at hr
    obtain ⟨r0, hr0, hfr0⟩ := List.mem_map.mp hr
    have hids : r.citingCaseId = r0.citingCaseId ∧ r.citedCaseId = r0.citedCaseId := by
      rw [← hfr0]
      unfold extUpdFn
      by_cases hp : pairPred citing cited r0 = true
      · rw [if_pos hp]; exact ⟨rfl, rfl⟩
      · rw [if_neg hp]; exact ⟨rfl, rfl⟩
    rw [hids.1, hids.2]
    exact hst r0 hr0
  · rw [if_neg hany] at hr
    rcases List.mem_append.mp hr with h | h
    · exact hst r h
    · rw [List.mem_singleton] at h
      subst h
      exact hne

lemma extractor_fold_no_self (caseId : String) (extracted : List ExtractedCitation)
    (hex : ∀ e ∈ extracted, e.matchedId ≠ caseId) :
    ∀ st : List ExtCitationRow, (∀ r ∈ st, r.citingCaseId ≠ r.citedCaseId) →
      ∀ r ∈ extractor_process_case st caseId extracted,
        r.citingCaseId ≠ r.citedCaseId := by
  induction extracted with
  | nil => intro st hst r hr; exact hst r hr
  | cons e rest ih =>
    intro st hst
    show ∀ r ∈ extractor_process_case
      (if !e.matchedId.isEmpty then
        extUpsertCitation st caseId e.matchedId (e.citeStr.take 200) e.confidence
      else st) caseId rest, r.citingCaseId ≠ r.citedCaseId
    refine ih (fun x hx => hex x (List.mem_cons_of_mem e hx)) _ ?_
    by_cases hne : (!e.matchedId.isEmpty) = true
    · rw [if_pos hne]
      exact extUpsert_preserves_no_self st caseId e.matchedId _ _ hst
        (fun hcon => hex e (List.mem_cons_self e rest) hcon.symm)
    · rw [if_neg hne]
      exact hst

/-- Claim C6: the two sourced ingestion paths never persist a
self-citation edge — every citation emitted by
`extract_citations_from_case` carries a matched id different from the
processed case (the `matched_id != case_id` guard), the storage loop
therefore preserves the invariant source ≠ target for every persisted
edge, and `process_citation` of workers/etl.py with its shipped
resolver (which resolves nothing) persists no edge at all. -/
theorem c6_no_self_citation :
    (∀ (caseLookup : String → Option String) (normalize : String → String)
      (caseId : String) (cites : List RawCite),
      ∀ e ∈ extract_citations_from_case caseLookup normalize caseId cites,
        e.matchedId ≠ caseId) ∧
    (∀ (st : List ExtCitationRow) (caseId : String)
      (caseLookup : String → Option String) (normalize : String → String)
      (cites : List RawCite),
      (∀ r ∈ st, r.citingCaseId ≠ r.citedCaseId) →
      ∀ r ∈ extractor_process_case st caseId
          (extract_citations_from_case caseLookup normalize caseId cites),
        r.citingCaseId ≠ r.citedCaseId) ∧
    (∀ (st : List EtlCitationRow) (sourceCaseId citation : String),
      etl_process_citation resolve_citation st sourceCaseId citation = st) := by
  refine ⟨?_, ?_, ?_⟩
  · intro caseLookup normalize caseId cites e he
    obtain ⟨c, _, hc⟩ := List.mem_filterMap.mp he
    exact extractEntry_no_self caseLookup normalize caseId c e hc
  · intro st caseId caseLookup normalize cites hst
    refine extractor_fold_no_self caseId _ ?_ st hst
    intro e he
    obtain ⟨c, _, hc⟩ := List.mem_filterMap.mp he
    exact extractEntry_no_self caseLookup normalize caseId c e hc
  · intro st sourceCaseId citation
    rfl

/-- Witness for claim C6's invariant branch: processing a concrete
full citation that resolves to another case keeps source ≠ target. -/
theorem c6_no_self_citation_witness :
    ∀ r ∈ extractor_process_case [] "case-a"
        (extract_citations_from_case (fun _ => some "case-b") (fun s => s) "case-a"
          [⟨"Foo v. Bar, 1 U.S. 1", true, "1 U.S. 1", none⟩]),
      r.citingCaseId ≠ r.citedCaseId :=
  c6_no_self_citation.2.1 [] "case-a" (fun _ => some "case-b") (fun s => s)
    [⟨"Foo v. Bar, 1 U.S. 1", true, "1 U.S. 1", none⟩] (by simp)

/-! ## Embedding generation (workers/etl.py, generate_embedding) -/

/-- Outcome of the embedding API call inside `generate_embedding`: an
HTTP response with a status code and parsed embedding payload, or an
exception anywhere in the call or parsing (caught by the surrounding
`try/except`). -/
inductive EmbedApiCall where
  | response (status : Nat) (embedding : List ℚ)
  | exn
  deriving DecidableEq, Repr

/-- `generate_embedding` of workers/etl.py: with no OpenAI key, a
random vector of 1536 draws; with a key, the service's embedding when
the call returns status 200, and the all-zero vector of length 1536
when the call raises or returns any other status. -/
def generate_embedding (apiKey : Option String) (randomDraw : Nat → ℚ)
    (call : EmbedApiCall) : List ℚ :=
  match apiKey with
  | none => (List.range 1536).map randomDraw
  | some _ =>
    match call with
    | .response status emb => if status == 200 then emb else List.replicate 1536 0
    | .exn => List.replicate 1536 0

/-- Claim C10: `generate_embedding` is total and fixed-dimension —
assuming the embedding service honours its fixed-length contract
(a status-200 payload has 1536 entries), every call returns a list of
exactly 1536 numbers without raising: the random vector without an API
key, the service's vector on success, and the all-zero vector of
length 1536 on an HTTP error or an exception. -/
theorem c10_generate_embedding_total (apiKey : Option String) (randomDraw : Nat → ℚ)
    (call : EmbedApiCall)
    (hdim : ∀ emb : List ℚ, call = EmbedApiCall.response 200 emb → emb.length = 1536) :
    (generate_embedding apiKey randomDraw call).length = 1536 ∧
    (apiKey = none →
      generate_embedding apiKey randomDraw call = (List.range 1536).map randomDraw) ∧
    (∀ key : String, ∀ emb : List ℚ, apiKey = some key →
      call = EmbedApiCall.response 200 emb →
      generate_embedding apiKey randomDraw call = emb) ∧
    (∀ key : String, apiKey = some key →
      (call = EmbedApiCall.exn ∨
        ∀ status : Nat, ∀ emb : List ℚ, call = EmbedApiCall.response status emb →
          status ≠ 200) →
      generate_embedding apiKey randomDraw call = List.replicate 1536 0) := by
  refine ⟨?_, ?_, ?_, ?_⟩
  · cases apiKey with
    | none =>
      show ((List.range 1536).map randomDraw).length = 1536
      rw [List.length_map, List.length_range]
    | some key =>
      cases call with
      | exn => exact List.length_replicate 1536 0
      | response status emb =>
        by_cases hs : status = 200
        · subst hs
          show (if (200 == 200) = true then emb else List.replicate 1536 0).length = 1536
          rw [if_pos (beq_self_eq_true 200)]
          exact hdim emb rfl
        · show (if (status == 200) = true then emb else List.replicate 1536 0).length = 1536
          rw [if_neg (by simpa using hs)]
          exact List.length_replicate 1536 0
  · intro hnone
    subst hnone
    rfl
  · intro key emb hkey hcall
    subst hkey
    subst hcall
    show (if (200 == 200) = true then emb else List.replicate 1536 0) = emb
    rw [if_pos (beq_self_eq_true 200)]
  · intro key hkey hfail
    subst hkey
    cases call with
    | exn => rfl
    | response status emb =>
      rcases hfail with h | h
      · cases h
      · have hne : status ≠ 200 := h status emb rfl
        show (if (status == 200) = true then emb else List.replicate 1536 0)
          = List.replicate 1536 0
        rw [if_neg (by simpa using hne)]

/-- Witness for claim C10 at a concrete successful call whose payload
has 1536 entries. -/
theorem c10_generate_embedding_total_witness :
    (generate_embedding (some "key") (fun _ => 0)
      (EmbedApiCall.response 200 (List.replicate 1536 (37 / 100)))).length = 1536 :=
  (c10_generate_embedding_total (some "key") (fun _ => 0)
    (EmbedApiCall.response 200 (List.replicate 1536 (37 / 100)))
    (by intro emb h; cases h; exact List.length_replicate 1536 _)).1
